import Mathlib

/-!
Shallow embedding of the `pewpew` tracing core (`src/pewpew/beam.py`,
`src/pewpew/_context.py`, `src/pewpew/utils/iterables.py`).

Timestamps (`time.perf_counter` values) are modelled as integers supplied
explicitly to each operation; the claims under study depend only on which
timestamps are recorded where, never on clock behaviour.

Mutable Python objects are modelled with arenas: `TraceContext` nodes and
`Beam` objects live in lists owned by the `Store`, and the fields that
Python stores as object references (`_parent`, `_child`, `_beams`, the
history entries) are stored as indices into those arenas.  This captures
aliasing: the history holds the same node a later mutation goes through.
-/

namespace Pewpew

abbrev Time := Int

/-- Embedding of `Beam` (src/pewpew/beam.py).  `pending` is the `_start`
attribute; `_stop` is only ever reset to `None` in the source, so it is not
modelled. -/
structure Beam where
  name : String
  beamId : String
  start_times : List Time
  end_times : List Time
  pending : Option Time
  deriving Repr, DecidableEq

instance : Inhabited Beam :=
  ⟨{ name := "", beamId := "", start_times := [], end_times := [], pending := none }⟩

/-- Source `Beam.clear`: reset counter, empty both timestamp lists. -/
def Beam.clear (b : Beam) : Beam :=
  { b with pending := none, start_times := [], end_times := [] }

/-- Source `Beam.__init__`: store the name, `clear()`, generate an id.  NOTE: the
constructor in src/pewpew/beam.py does not announce the beam to the context
store (see the C1 analysis). -/
def Beam.init (name uuid : String) : Beam :=
  (Beam.clear { name := name, beamId := uuid
                start_times := [], end_times := [], pending := none })

/-- Source `Beam.__enter__`: reset the counter, record the current time as the
pending start and append it to `_start_times`. -/
def Beam.enter (b : Beam) (t : Time) : Beam :=
  { b with pending := some t, start_times := b.start_times ++ [t] }

/-- Source `Beam.__exit__`: append the current time to `_end_times`, reset the
counter. -/
def Beam.exit (b : Beam) (t : Time) : Beam :=
  { b with end_times := b.end_times ++ [t], pending := none }

/-- The `RuntimeError` message raised by `Beam._zipped`. -/
def concurrentAccessMsg : String :=
  "Concurrent access to Beam from within context manager block"

/-- Source `Beam._zipped`: raise if the two timestamp lists differ in length,
otherwise zip them (at equal lengths Python's `zip` pairs index-wise). -/
def Beam.zipped (b : Beam) : Except String (List (Time × Time)) :=
  if b.start_times.length ≠ b.end_times.length then
    Except.error concurrentAccessMsg
  else
    Except.ok (b.start_times.zip b.end_times)

/-- Source `Beam.timings`: map `stop - start` over the zipped pairs. -/
def Beam.timings (b : Beam) : Except String (List Time) :=
  b.zipped.map (List.map (fun ab => ab.2 - ab.1))

/-- Embedding of `TraceContext` (src/pewpew/_context.py).  `parent`,
`child` and the tracked beams are arena indices. -/
structure Ctx where
  name : String
  parent : Option Nat
  child : Option Nat
  beams : List Nat
  deriving Repr, DecidableEq

instance : Inhabited Ctx :=
  ⟨{ name := "", parent := none, child := none, beams := [] }⟩

/-- Embedding of `_ContextStore` plus the arenas of live objects. -/
structure Store where
  ctxs : List Ctx
  beamArena : List Beam
  root : Option Nat
  head : Option Nat
  history : List Nat
  maxlen : Option Nat
  deriving Repr, DecidableEq

/-- Source `_ContextStore.__init__` / `_reset`. -/
def initStore (maxlen : Option Nat) : Store :=
  { ctxs := [], beamArena := [], root := none, head := none
    history := [], maxlen := maxlen }

def Store.ctxAt (s : Store) (i : Nat) : Ctx := s.ctxs.getD i default

def Store.beamAt (s : Store) (i : Nat) : Beam := s.beamArena.getD i default

def Store.parentOf (s : Store) (i : Nat) : Option Nat := (s.ctxAt i).parent

def Store.childOf (s : Store) (i : Nat) : Option Nat := (s.ctxAt i).child

def Store.ctxName (s : Store) (i : Nat) : String := (s.ctxAt i).name

/-- Update the context at index `i` in the arena (identity out of bounds,
which never arises for the embedded operations). -/
def setCtx (l : List Ctx) (i : Nat) (f : Ctx → Ctx) : List Ctx :=
  l.set i (f (l.getD i default))

/-- Source `TraceContext.link_child`: `self._child = child; child._parent = self`. -/
def linkChild (l : List Ctx) (h n : Nat) : List Ctx :=
  setCtx (setCtx l h (fun c => { c with child := some n }))
    n (fun c => { c with parent := some h })

/-- Source `_ContextStore.push`: a fresh root, or link the new node as the head's
child and advance the head.  The final branch (`root` set but `head` not) is
unreachable under the store invariant proved below; CPython would raise
`AttributeError` there. -/
def Store.push (s : Store) (n : Nat) : Store :=
  match s.root with
  | none => { s with root := some n, head := some n }
  | some _ =>
    match s.head with
    | some h => { s with ctxs := linkChild s.ctxs h n, head := some n }
    | none => s

/-- Python deque append with a maximum length: on a full deque the oldest
(leftmost) entries are dropped. -/
def appendBounded (maxlen : Option Nat) (l : List Nat) (x : Nat) : List Nat :=
  match maxlen with
  | none => l ++ [x]
  | some m => let l2 := l ++ [x]; l2.drop (l2.length - m)

/-- Source `_ContextStore.pop`: no-op on an empty store; otherwise move `head` back
to the popped node's parent, leaving the popped node's `child` link intact,
and when the chain fully unwinds clear `root` and append the popped node to
the bounded history. -/
def Store.pop (s : Store) : Store :=
  match s.head with
  | none => s
  | some h =>
    match s.parentOf h with
    | none =>
      { s with head := none, root := none
               history := appendBounded s.maxlen s.history h }
    | some p => { s with head := some p }

/-- Source `_ContextStore.track_beam`: append the beam reference to the head's
`_beams` when a context is active, otherwise do nothing. -/
def Store.track_beam (s : Store) (bid : Nat) : Store :=
  match s.head with
  | none => s
  | some h => { s with ctxs := setCtx s.ctxs h (fun c => { c with beams := c.beams ++ [bid] }) }

/-- Apply an in-place mutation to the live beam at index `bid`. -/
def Store.mutateBeam (s : Store) (bid : Nat) (f : Beam → Beam) : Store :=
  { s with beamArena := s.beamArena.set bid (f (s.beamAt bid)) }

/-- Source `TraceContext.beams` (the `beams` property): `copy.deepcopy(self._beams)`
— resolve the live references to their current values, producing snapshots
independent of the arena. -/
def Store.beamsSnap (s : Store) (i : Nat) : List Beam :=
  (s.ctxAt i).beams.map s.beamAt

/-- Source `find_first` (src/pewpew/utils/iterables.py): first element satisfying
the predicate, or `None`.  This is exactly `List.find?`. -/
def find_first (l : List Nat) (p : Nat → Bool) : Option Nat :=
  l.find? p

/-- Python sequence indexing `l[i]` with an `int` index: negative indices
count from the end; out of range is `None` (the caller turns it into an
`IndexError`). -/
def pyGet (l : List Nat) (i : Int) : Option Nat :=
  let n : Int := (l.length : Int)
  if 0 ≤ i ∧ i < n then l.get? i.toNat
  else if -n ≤ i ∧ i < 0 then l.get? (i + n).toNat
  else none

/-- The `while trace is not None: beams.extend(trace.beams); trace =
trace._child` loop of `get_trace`, as a fuel recursion.  Under the store
invariant child links strictly increase, so any fuel larger than the arena
size makes the recursion run the whole chain (proved below). -/
def Store.flattenFrom (s : Store) : Nat → Option Nat → List Beam
  | _, none => []
  | 0, some _ => []
  | Nat.succ fuel, some nid => s.beamsSnap nid ++ s.flattenFrom fuel (s.childOf nid)

/-- The fuel `get_trace` hands to the flattening loop. -/
def Store.flatFuel (s : Store) : Nat := s.ctxs.length + 1

/-- The `IndexError` raised by indexing the history deque out of range. -/
def indexErrorMsg : String := "IndexError: deque index out of range"

/-- Source `_ContextStore.get_trace`: default to `idx = -1` when neither argument
is given; an empty history short-circuits to `[]`; an index selects the
history position directly (Python semantics, `IndexError` when invalid);
otherwise scan the reversed history for the first name match (`t.name ==
name`, which is never true for `None`) and flatten the selected chain. -/
def Store.get_trace (s : Store) (name : Option String) (idx : Option Int) :
    Except String (List Beam) :=
  let idx2 := if name = none ∧ idx = none then some (-1 : Int) else idx
  if s.history = [] then Except.ok []
  else
    match idx2 with
    | some i =>
      match pyGet s.history i with
      | none => Except.error indexErrorMsg
      | some nid => Except.ok (s.flattenFrom s.flatFuel (some nid))
    | none =>
      Except.ok (s.flattenFrom s.flatFuel
        (find_first s.history.reverse (fun nid => some (s.ctxName nid) = name)))

/-!  ## The operation language

Each constructor is one externally-triggered mutation of the shared state:

* `pushNew name` — `TraceContext.__init__` followed by `__enter__`
  (the decorator creates a fresh node and pushes it);
* `popOp` — `TraceContext.__exit__`, i.e. `ContextStore.pop()`;
* `newBeam` — `Beam.__init__` as written in src/pewpew/beam.py (allocates
  the object; it does NOT call `track_beam`, see C1);
* `trackBeam` — `ContextStore.track_beam` on a live beam reference;
* `beamEnter` / `beamExit` / `beamClear` — the `Beam` context-manager
  protocol and `Beam.clear` applied to a live beam.
-/

inductive Op where
  | pushNew (name : String)
  | popOp
  | newBeam (name uuid : String)
  | trackBeam (bid : Nat)
  | beamEnter (bid : Nat) (t : Time)
  | beamExit (bid : Nat) (t : Time)
  | beamClear (bid : Nat)
  deriving Repr, DecidableEq

def Store.newCtx (s : Store) (name : String) : Store × Nat :=
  ({ s with ctxs := s.ctxs ++ [{ name := name, parent := none, child := none, beams := [] }] },
   s.ctxs.length)

def applyOp (s : Store) : Op → Store
  | Op.pushNew nm => let sn := s.newCtx nm; sn.1.push sn.2
  | Op.popOp => s.pop
  | Op.newBeam nm uuid => { s with beamArena := s.beamArena ++ [Beam.init nm uuid] }
  | Op.trackBeam bid => s.track_beam bid
  | Op.beamEnter bid t => s.mutateBeam bid (fun b => b.enter t)
  | Op.beamExit bid t => s.mutateBeam bid (fun b => b.exit t)
  | Op.beamClear bid => s.mutateBeam bid Beam.clear

def applyOps (ops : List Op) (s : Store) : Store :=
  ops.foldl applyOp s

/-!  ## Store invariants

Contexts are allocated in order, and `push` only ever links a fresh node
below the current head, so parent links point strictly downward and child
links strictly upward in allocation order.  The currently active chain is
the list of node indices from `root` to `head` connected by parent links.
-/

/-- Every parent link points to an earlier-allocated node. -/
def parentDec (s : Store) : Prop :=
  ∀ i p, s.parentOf i = some p → p < i ∧ i < s.ctxs.length

/-- Every child link points to a later-allocated (and allocated) node. -/
def childInc (s : Store) : Prop :=
  ∀ i q, s.childOf i = some q → i < q ∧ q < s.ctxs.length

/-- Predicate: `l` is the active chain: it runs from `root` (its first element, which
has no parent) to `head` (its last element), consecutive elements being
linked by parent pointers. -/
def ChainOK (s : Store) (l : List Nat) : Prop :=
  s.root = l.head? ∧ s.head = l.getLast? ∧
  (∀ a, l.head? = some a → s.parentOf a = none) ∧
  l.Chain' (fun a b => s.parentOf b = some a) ∧
  (∀ a ∈ l, a < s.ctxs.length)

/-- The reachable-state invariant of the store. -/
def Inv (s : Store) : Prop :=
  parentDec s ∧ childInc s ∧ ∃ l, ChainOK s l

/-- Walk parent links upward from a node; `some r` is the chain's root if
the walk terminates within the given fuel.  Used to express that every
parent chain is finite. -/
def Store.ancestorStop (s : Store) : Nat → Nat → Option Nat
  | 0, _ => none
  | Nat.succ fuel, i =>
    match s.parentOf i with
    | none => some i
    | some p => s.ancestorStop fuel p

/-- The list of nodes visited by the `get_trace` flattening loop: the node
itself followed by the chain of its child links (fuel-bounded like
`flattenFrom`). -/
def Store.chainNodes (s : Store) : Nat → Option Nat → List Nat
  | _, none => []
  | 0, some _ => []
  | Nat.succ fuel, some nid => nid :: s.chainNodes fuel (s.childOf nid)

/-- A sequence of balanced scoped activations of a beam: each pair is one
`with beam:` block (enter at the first component, exit at the second). -/
def applyPairs (b : Beam) (l : List (Time × Time)) : Beam :=
  l.foldl (fun acc p => (acc.enter p.1).exit p.2) b

/-- Relates a run of the store with unbounded history to the same run with
maximum history size `M`: every component agrees except the history, which
in the bounded run is the suffix of most recent `M` entries of the
unbounded one. -/
def SimBounded (M : Nat) (s1 s2 : Store) : Prop :=
  s2.ctxs = s1.ctxs ∧ s2.beamArena = s1.beamArena ∧ s2.root = s1.root ∧
    s2.head = s1.head ∧ s1.maxlen = none ∧ s2.maxlen = some M ∧
    s2.history = s1.history.drop (s1.history.length - M)

/-!  ## Concrete instances used in witnesses and counterexamples -/

/-- A beam with one completed (start, stop) pair. -/
def pairedBeam : Beam :=
  { name := "x", beamId := "u", start_times := [2], end_times := [5], pending := none }

/-- A beam with one open activation (entered at time 1, never exited). -/
def openBeam : Beam :=
  { name := "b", beamId := "u", start_times := [1], end_times := [], pending := some 1 }

/-- The spec's end-to-end scenario: push context "outer", use beam b1 once,
push context "inner", use beam b2 once, pop both contexts. -/
def scenarioOps : List Op :=
  [Op.pushNew "outer", Op.newBeam "b1" "u1", Op.trackBeam 0,
   Op.beamEnter 0 1, Op.beamExit 0 2,
   Op.pushNew "inner", Op.newBeam "b2" "u2", Op.trackBeam 1,
   Op.beamEnter 1 3, Op.beamExit 1 4,
   Op.popOp, Op.popOp]

def scenarioStore : Store := applyOps scenarioOps (initStore none)

/-- A single trace "A" tracking one beam used once, fully unwound into
history; the beam object stays live at arena index 0. -/
def singleTraceOps : List Op :=
  [Op.pushNew "A", Op.newBeam "b" "u", Op.trackBeam 0,
   Op.beamEnter 0 1, Op.beamExit 0 2, Op.popOp]

def singleTraceStore : Store := applyOps singleTraceOps (initStore none)

/-- Two completed traces both named "X", each tracking its own beam: the
name lookup must pick the more recent one (node 1, tracking beam m2). -/
def dupNameOps : List Op :=
  [Op.pushNew "X", Op.newBeam "m1" "w1", Op.trackBeam 0, Op.popOp,
   Op.pushNew "X", Op.newBeam "m2" "w2", Op.trackBeam 1, Op.popOp]

def dupNameStore : Store := applyOps dupNameOps (initStore none)

/-! ## Helper lemmas -/

theorem getD_oob {α : Type} [Inhabited α] (l : List α) (i : Nat) (h : l.length ≤ i) :
    l.getD i default = default := by
  simp [List.getD_eq_getElem?_getD, List.getElem?_eq_none h]

theorem getD_append_lt {α : Type} [Inhabited α] (l : List α) (c : α) (i : Nat)
    (h : i < l.length) : (l ++ [c]).getD i default = l.getD i default := by
  simp [List.getD_eq_getElem?_getD, List.getElem?_append, h]

theorem getD_append_len {α : Type} [Inhabited α] (l : List α) (c : α) :
    (l ++ [c]).getD l.length default = c := by
  simp [List.getD_eq_getElem?_getD, List.getElem?_concat_length]

theorem getD_append_gt {α : Type} [Inhabited α] (l : List α) (c : α) (i : Nat)
    (h : l.length < i) : (l ++ [c]).getD i default = default := by
  refine getD_oob _ _ ?_
  simpa using h

theorem getD_setCtx (l : List Ctx) (i j : Nat) (f : Ctx → Ctx) :
    (setCtx l i f).getD j default =
      if i = j ∧ i < l.length then f (l.getD i default) else l.getD j default := by
  simp only [setCtx, List.getD_eq_getElem?_getD, List.getElem?_set]
  by_cases hij : i = j
  · subst hij
    by_cases hlen : i < l.length
    · simp [hlen, List.getD_eq_getElem?_getD]
    · simp [hlen, List.getElem?_eq_none (Nat.le_of_not_lt hlen)]
  · simp [hij]

theorem default_ctx_parent : (default : Ctx).parent = none := rfl

theorem default_ctx_child : (default : Ctx).child = none := rfl

theorem length_setCtx (l : List Ctx) (i : Nat) (f : Ctx → Ctx) :
    (setCtx l i f).length = l.length :=
  List.length_set ..

theorem getD_linkChild (l : List Ctx) (h n j : Nat)
    (hh : h < l.length) (hn : n < l.length) (hne : h ≠ n) :
    (linkChild l h n).getD j default =
      if j = n then { l.getD n default with parent := some h }
      else if j = h then { l.getD h default with child := some n }
      else l.getD j default := by
  unfold linkChild
  simp only [getD_setCtx, length_setCtx]
  by_cases hjn : j = n
  · subst hjn
    simp [hn, hne, Ne.symm hne]
  · by_cases hjh : j = h
    · subst hjh
      simp [hjn, Ne.symm hjn, hh]
    · simp [hjn, hjh, Ne.symm hjn, Ne.symm hjh]

theorem getD_track (l : List Ctx) (h j : Nat) (bid : Nat) :
    ((setCtx l h (fun c => { c with beams := c.beams ++ [bid] })).getD j default).parent
        = (l.getD j default).parent ∧
      ((setCtx l h (fun c => { c with beams := c.beams ++ [bid] })).getD j default).child
        = (l.getD j default).child ∧
      ((setCtx l h (fun c => { c with beams := c.beams ++ [bid] })).getD j default).name
        = (l.getD j default).name := by
  simp only [getD_setCtx]
  by_cases hcond : h = j ∧ h < l.length
  · obtain ⟨rfl, hlt⟩ := hcond
    simp [hlt]
  · simp [hcond]

theorem parent_append_cases (L : List Ctx) (c : Ctx) (i p : Nat)
    (h : ((L ++ [c]).getD i default).parent = some p) :
    (i < L.length ∧ (L.getD i default).parent = some p) ∨
      (i = L.length ∧ c.parent = some p) := by
  rcases Nat.lt_trichotomy i L.length with hlt | heq | hgt
  · rw [getD_append_lt _ _ _ hlt] at h; exact Or.inl ⟨hlt, h⟩
  · subst heq; rw [getD_append_len] at h; exact Or.inr ⟨rfl, h⟩
  · rw [getD_append_gt _ _ _ hgt, default_ctx_parent] at h; cases h

theorem child_append_cases (L : List Ctx) (c : Ctx) (i q : Nat)
    (h : ((L ++ [c]).getD i default).child = some q) :
    (i < L.length ∧ (L.getD i default).child = some q) ∨
      (i = L.length ∧ c.child = some q) := by
  rcases Nat.lt_trichotomy i L.length with hlt | heq | hgt
  · rw [getD_append_lt _ _ _ hlt] at h; exact Or.inl ⟨hlt, h⟩
  · subst heq; rw [getD_append_len] at h; exact Or.inr ⟨rfl, h⟩
  · rw [getD_append_gt _ _ _ hgt, default_ctx_child] at h; cases h

theorem parent_linkChild (L : List Ctx) (h n j : Nat)
    (hh : h < L.length) (hn : n < L.length) (hne : h ≠ n) :
    ((linkChild L h n).getD j default).parent =
      if j = n then some h else (L.getD j default).parent := by
  rw [getD_linkChild L h n j hh hn hne]
  by_cases hjn : j = n
  · simp [hjn]
  · by_cases hjh : j = h
    · subst hjh
      simp [hjn, hne]
    · simp [hjn, hjh]

theorem child_linkChild (L : List Ctx) (h n j : Nat)
    (hh : h < L.length) (hn : n < L.length) (hne : h ≠ n) :
    ((linkChild L h n).getD j default).child =
      if j = h then some n else (L.getD j default).child := by
  rw [getD_linkChild L h n j hh hn hne]
  by_cases hjn : j = n
  · subst hjn
    simp [Ne.symm hne]
  · by_cases hjh : j = h
    · subst hjh
      simp [hjn, hne]
    · simp [hjn, hjh]

/-- Replace the relation of a `Chain'` by one that agrees on members. -/
theorem chain'_ext {R S : Nat → Nat → Prop} :
    ∀ l : List Nat, (∀ a ∈ l, ∀ b ∈ l, R a b → S a b) → l.Chain' R → l.Chain' S
  | [], _, _ => List.chain'_nil
  | [_], _, _ => List.chain'_singleton _
  | a :: b :: t, hab, hch => by
    rw [List.chain'_cons] at hch ⊢
    refine ⟨hab a (by simp) b (by simp) hch.1, ?_⟩
    exact chain'_ext (b :: t) (fun x hx y hy => hab x (by simp [hx]) y (by simp [hy])) hch.2

/-! ## Invariant preservation -/

theorem inv_initStore (m : Option Nat) : Inv (initStore m) := by
  refine ⟨?_, ?_, [], rfl, rfl, ?_, List.chain'_nil, ?_⟩
  · intro i p hip
    rw [show (initStore m).parentOf i = none from by
      simp [Store.parentOf, Store.ctxAt, initStore, getD_oob, default_ctx_parent]] at hip
    cases hip
  · intro i q hiq
    rw [show (initStore m).childOf i = none from by
      simp [Store.childOf, Store.ctxAt, initStore, getD_oob, default_ctx_child]] at hiq
    cases hiq
  · intro a ha; cases ha
  · intro a ha; cases ha

theorem inv_pushNew (s : Store) (nm : String) (hInv : Inv s) :
    Inv (applyOp s (Op.pushNew nm)) := by
  obtain ⟨hp, hc, l, hroot, hhead, hfirst, hchain, hbound⟩ := hInv
  cases hr : s.root with
  | none =>
    have hl0 : l = [] := by
      cases l with
      | nil => rfl
      | cons a as => rw [hr] at hroot; exact absurd hroot (by simp)
    subst hl0
    have happ : applyOp s (Op.pushNew nm) =
        { s with ctxs := s.ctxs ++ [{ name := nm, parent := none, child := none, beams := [] }],
                 root := some s.ctxs.length, head := some s.ctxs.length } := by
      simp [applyOp, Store.newCtx, Store.push, hr]
    rw [happ]
    refine ⟨?_, ?_, [s.ctxs.length], by simp, by simp, ?_, List.chain'_singleton _, ?_⟩
    · intro i p hip
      rcases parent_append_cases s.ctxs _ i p hip with ⟨hlt, hold⟩ | ⟨_, hnew⟩
      · have := hp i p hold
        exact ⟨this.1, by simp; omega⟩
      · cases hnew
    · intro i q hiq
      rcases child_append_cases s.ctxs _ i q hiq with ⟨hlt, hold⟩ | ⟨_, hnew⟩
      · have := hc i q hold
        exact ⟨this.1, by simp; omega⟩
      · cases hnew
    · intro a ha
      simp at ha
      subst ha
      show ((s.ctxs ++ [_]).getD s.ctxs.length default).parent = none
      rw [getD_append_len]
    · intro a ha
      simp at ha
      simp [ha]
  | some r =>
    have hlne : l ≠ [] := by
      intro h0
      rw [hr, h0] at hroot
      exact absurd hroot (by simp)
    obtain ⟨h, hh⟩ : ∃ h, s.head = some h := by
      cases hhd : s.head with
      | some h => exact ⟨h, rfl⟩
      | none =>
        rw [hhd] at hhead
        exact absurd (List.getLast?_eq_none_iff.mp hhead.symm) hlne
    have hlast : l.getLast? = some h := by rw [← hhead, hh]
    have hmem : h ∈ l := List.mem_of_mem_getLast? hlast
    have hhlt : h < s.ctxs.length := hbound h hmem
    have happ : applyOp s (Op.pushNew nm) =
        { s with
            ctxs := linkChild
              (s.ctxs ++ [{ name := nm, parent := none, child := none, beams := [] }])
              h s.ctxs.length,
            head := some s.ctxs.length } := by
      simp [applyOp, Store.newCtx, Store.push, hr, hh]
    -- abbreviations for the new state
    set n := s.ctxs.length with hn
    set L := s.ctxs ++ [({ name := nm, parent := none, child := none, beams := [] } : Ctx)]
      with hL
    have hLlen : L.length = n + 1 := by simp [hL]
    have hhL : h < L.length := by omega
    have hnL : n < L.length := by omega
    have hne : h ≠ n := Nat.ne_of_lt hhlt
    have hlen2 : (linkChild L h n).length = n + 1 := by
      simp [linkChild, length_setCtx, hLlen]
    -- pointwise parent/child of the new context list
    have hpar : ∀ j, ((linkChild L h n).getD j default).parent =
        if j = n then some h else ((s.ctxs).getD j default).parent := by
      intro j
      rw [parent_linkChild L h n j hhL hnL hne]
      by_cases hjn : j = n
      · simp [hjn]
      · rw [if_neg hjn, if_neg hjn]
        rcases Nat.lt_trichotomy j n with hlt | heq | hgt
        · rw [hL, getD_append_lt _ _ _ hlt]
        · exact absurd heq hjn
        · rw [hL, getD_append_gt _ _ _ hgt, getD_oob _ _ (Nat.le_of_lt hgt)]
    have hchd : ∀ j, ((linkChild L h n).getD j default).child =
        if j = h then some n else ((s.ctxs).getD j default).child := by
      intro j
      rw [child_linkChild L h n j hhL hnL hne]
      by_cases hjh : j = h
      · simp [hjh]
      · rw [if_neg hjh, if_neg hjh]
        rcases Nat.lt_trichotomy j n with hlt | heq | hgt
        · rw [hL, getD_append_lt _ _ _ hlt]
        · subst heq
          rw [hL, getD_append_len, getD_oob _ _ (Nat.le_refl _)]
          rfl
        · rw [hL, getD_append_gt _ _ _ hgt, getD_oob _ _ (Nat.le_of_lt hgt)]
    rw [happ]
    refine ⟨?_, ?_, l ++ [n], ?_, ?_, ?_, ?_, ?_⟩
    · -- parentDec
      intro i p hip
      replace hip : ((linkChild L h n).getD i default).parent = some p := hip
      rw [hpar i] at hip
      by_cases hin : i = n
      · rw [if_pos hin] at hip
        cases hip
        constructor
        · omega
        · show i < (linkChild L h n).length
          omega
      · rw [if_neg hin] at hip
        have := hp i p hip
        refine ⟨this.1, ?_⟩
        show i < (linkChild L h n).length
        omega
    · -- childInc
      intro i q hiq
      replace hiq : ((linkChild L h n).getD i default).child = some q := hiq
      rw [hchd i] at hiq
      by_cases hih : i = h
      · rw [if_pos hih] at hiq
        cases hiq
        constructor
        · omega
        · show n < (linkChild L h n).length
          omega
      · rw [if_neg hih] at hiq
        have := hc i q hiq
        refine ⟨this.1, ?_⟩
        show q < (linkChild L h n).length
        omega
    · -- root
      show s.root = (l ++ [n]).head?
      rw [List.head?_append_of_ne_nil _ hlne]
      exact hroot
    · -- head
      show some n = (l ++ [n]).getLast?
      rw [List.getLast?_concat]
    · -- first element has no parent
      intro a ha
      rw [List.head?_append_of_ne_nil _ hlne] at ha
      have hfa := hfirst a ha
      have hamem : a ∈ l := List.mem_of_mem_head? ha
      have halt : a < n := hbound a hamem
      show ((linkChild L h n).getD a default).parent = none
      rw [hpar a, if_neg (Nat.ne_of_lt halt)]
      exact hfa
    · -- chain
      rw [List.chain'_append]
      refine ⟨?_, List.chain'_singleton _, ?_⟩
      · refine chain'_ext l ?_ hchain
        intro a _ b hb hR
        show ((linkChild L h n).getD b default).parent = some a
        rw [hpar b, if_neg (Nat.ne_of_lt (hbound b hb))]
        exact hR
      · intro x hx y hy
        simp at hy
        subst hy
        rw [hlast] at hx
        cases hx
        show ((linkChild L h n).getD n default).parent = some h
        rw [hpar n, if_pos rfl]
    · -- bounds
      intro a ha
      rw [List.mem_append] at ha
      show a < (linkChild L h n).length
      rcases ha with ha | ha
      · have := hbound a ha
        omega
      · simp at ha
        omega

theorem inv_pop (s : Store) (hInv : Inv s) : Inv s.pop := by
  obtain ⟨hp, hc, l, hroot, hhead, hfirst, hchain, hbound⟩ := hInv
  cases hh : s.head with
  | none =>
    rw [show s.pop = s from by simp [Store.pop, hh]]
    exact ⟨hp, hc, l, hroot, hhead, hfirst, hchain, hbound⟩
  | some h =>
    have hlast : l.getLast? = some h := by rw [← hhead, hh]
    have hlne : l ≠ [] := by
      intro h0
      rw [h0] at hlast
      cases hlast
    obtain ⟨l', hl'⟩ : ∃ l', l = l' ++ [h] := by
      rcases List.eq_nil_or_concat l with h0 | ⟨L, b, hLb⟩
      · exact absurd h0 hlne
      · rw [List.concat_eq_append] at hLb
        refine ⟨L, ?_⟩
        rw [hLb] at hlast ⊢
        rw [List.getLast?_concat] at hlast
        cases hlast
        rfl
    cases hpar : s.parentOf h with
    | none =>
      have hpop : s.pop =
          { s with head := none, root := none,
                   history := appendBounded s.maxlen s.history h } := by
        simp [Store.pop, hh, hpar]
      rw [hpop]
      exact ⟨hp, hc, [], rfl, rfl, (by intro a ha; cases ha), List.chain'_nil,
        (by intro a ha; cases ha)⟩
    | some p =>
      have hpop : s.pop = { s with head := some p } := by
        simp [Store.pop, hh, hpar]
      have hl'ne : l' ≠ [] := by
        intro h0
        rw [hl', h0] at hroot hfirst
        have := hfirst h (by simp)
        rw [this] at hpar
        cases hpar
      subst hl'
      rw [List.chain'_append] at hchain
      obtain ⟨hchain', _, hlink⟩ := hchain
      obtain ⟨x, hx⟩ : ∃ x, l'.getLast? = some x := by
        cases hgl : l'.getLast? with
        | some x => exact ⟨x, rfl⟩
        | none => exact absurd (List.getLast?_eq_none_iff.mp hgl) hl'ne
      have hxp : x = p := by
        have := hlink x hx h (by simp)
        rw [this] at hpar
        cases hpar
        rfl
      subst hxp
      rw [hpop]
      refine ⟨hp, hc, l', ?_, ?_, ?_, hchain', ?_⟩
      · show s.root = l'.head?
        rw [hroot, List.head?_append_of_ne_nil _ hl'ne]
      · exact hx.symm
      · intro a ha
        exact hfirst a (by rw [List.head?_append_of_ne_nil _ hl'ne]; exact ha)
      · intro a ha
        exact hbound a (List.mem_append.mpr (Or.inl ha))

theorem parentOf_track_beam (s : Store) (bid i : Nat) :
    (s.track_beam bid).parentOf i = s.parentOf i := by
  cases hh : s.head with
  | none => simp [Store.track_beam, hh]
  | some h =>
    simp only [Store.track_beam, hh, Store.parentOf, Store.ctxAt]
    exact (getD_track s.ctxs h i bid).1

theorem childOf_track_beam (s : Store) (bid i : Nat) :
    (s.track_beam bid).childOf i = s.childOf i := by
  cases hh : s.head with
  | none => simp [Store.track_beam, hh]
  | some h =>
    simp only [Store.track_beam, hh, Store.childOf, Store.ctxAt]
    exact (getD_track s.ctxs h i bid).2.1

theorem track_beam_frame (s : Store) (bid : Nat) :
    (s.track_beam bid).root = s.root ∧ (s.track_beam bid).head = s.head ∧
      (s.track_beam bid).history = s.history ∧
      (s.track_beam bid).ctxs.length = s.ctxs.length := by
  cases hh : s.head with
  | none => simp [Store.track_beam, hh]
  | some h => simp [Store.track_beam, hh, length_setCtx]

theorem inv_track (s : Store) (bid : Nat) (hInv : Inv s) : Inv (s.track_beam bid) := by
  obtain ⟨hp, hc, l, hroot, hhead, hfirst, hchain, hbound⟩ := hInv
  obtain ⟨hfr, hfh, _, hflen⟩ := track_beam_frame s bid
  refine ⟨?_, ?_, l, ?_, ?_, ?_, ?_, ?_⟩
  · intro i p hip
    rw [parentOf_track_beam] at hip
    have := hp i p hip
    exact ⟨this.1, by rw [hflen]; exact this.2⟩
  · intro i q hiq
    rw [childOf_track_beam] at hiq
    have := hc i q hiq
    exact ⟨this.1, by rw [hflen]; exact this.2⟩
  · rw [hfr]; exact hroot
  · rw [hfh]; exact hhead
  · intro a ha
    rw [parentOf_track_beam]
    exact hfirst a ha
  · refine chain'_ext l ?_ hchain
    intro a _ b _ hR
    rw [parentOf_track_beam]
    exact hR
  · intro a ha
    rw [hflen]
    exact hbound a ha

theorem inv_beamArena (s : Store) (ba : List Beam) (hInv : Inv s) :
    Inv { s with beamArena := ba } := by
  obtain ⟨hp, hc, l, hroot, hhead, hfirst, hchain, hbound⟩ := hInv
  exact ⟨hp, hc, l, hroot, hhead, hfirst, hchain, hbound⟩

theorem inv_applyOp (s : Store) (op : Op) (hInv : Inv s) : Inv (applyOp s op) := by
  cases op with
  | pushNew nm => exact inv_pushNew s nm hInv
  | popOp => exact inv_pop s hInv
  | newBeam nm u => exact inv_beamArena s _ hInv
  | trackBeam bid => exact inv_track s bid hInv
  | beamEnter bid t => exact inv_beamArena s _ hInv
  | beamExit bid t => exact inv_beamArena s _ hInv
  | beamClear bid => exact inv_beamArena s _ hInv

theorem inv_applyOps_of_inv (ops : List Op) (s : Store) (hInv : Inv s) :
    Inv (applyOps ops s) := by
  induction ops generalizing s with
  | nil => exact hInv
  | cons op rest ih => exact ih (applyOp s op) (inv_applyOp s op hInv)

theorem inv_reachable (ops : List Op) (m : Option Nat) :
    Inv (applyOps ops (initStore m)) :=
  inv_applyOps_of_inv ops (initStore m) (inv_initStore m)

/-! ## C1 -/

/-- C1: the claim (and the repository's own test
`_context_test.py::test_single_trace_context`, "Beam constructor should
track the beam in the context") requires a `Beam` constructed while a trace
context is active to be appended to the current head's beam sequence.  In
`src/pewpew/beam.py` as written, `Beam.__init__` stores the name, calls
`clear()` and generates an id but never calls `ContextStore.track_beam`, so
after pushing a context and constructing a beam the head's `_beams` list is
still empty (while the beam object itself exists in the arena).  This
evaluates the embedded code at that failing input. -/
theorem C1_beam_init_does_not_track :
    (applyOps [Op.pushNew "test_context"] (initStore none)).head = some 0 ∧
      (applyOps [Op.pushNew "test_context", Op.newBeam "test_beam" "uuid0"]
        (initStore none)).head = some 0 ∧
      ((applyOps [Op.pushNew "test_context", Op.newBeam "test_beam" "uuid0"]
        (initStore none)).ctxAt 0).beams = [] ∧
      (applyOps [Op.pushNew "test_context", Op.newBeam "test_beam" "uuid0"]
        (initStore none)).beamArena.length = 1 :=
  ⟨rfl, rfl, rfl, rfl⟩

/-! ## C6 -/

/-- C6: `timings()` fails with the misuse (`RuntimeError`) message exactly
when the starts and stops sequences differ in length; at equal lengths it
returns `stops[i] - starts[i]` in index order, one entry per completed
(start, stop) pair. -/
theorem C6_timings_error_iff_length_mismatch (b : Beam) :
    (b.start_times.length ≠ b.end_times.length →
      b.timings = Except.error concurrentAccessMsg) ∧
    (b.start_times.length = b.end_times.length →
      b.timings =
          Except.ok (List.zipWith (fun st en => en - st) b.start_times b.end_times) ∧
        ∃ l, b.timings = Except.ok l ∧ l.length = b.start_times.length) := by
  constructor
  · intro hne
    simp [Beam.timings, Beam.zipped, hne, Except.map]
  · intro heq
    have hok : b.timings =
        Except.ok (List.zipWith (fun st en => en - st) b.start_times b.end_times) := by
      simp only [Beam.timings, Beam.zipped, heq]
      simp [List.zip_eq_zipWith, List.map_zipWith, Except.map]
    refine ⟨hok, _, hok, ?_⟩
    rw [List.length_zipWith]
    omega

/-- Witness for C6 at a concrete beam with one completed pair. -/
theorem C6_timings_error_iff_length_mismatch_witness :
    pairedBeam.start_times.length = pairedBeam.end_times.length ∧
      pairedBeam.timings = Except.ok [3] := by
  refine ⟨rfl, ?_⟩
  have h := (C6_timings_error_iff_length_mismatch pairedBeam).2 rfl
  rw [h.1]
  rfl

/-! ## C10 -/

theorem applyPairs_lengths (l : List (Time × Time)) (b : Beam) :
    (applyPairs b l).start_times.length = b.start_times.length + l.length ∧
      (applyPairs b l).end_times.length = b.end_times.length + l.length := by
  induction l generalizing b with
  | nil => simp [applyPairs]
  | cons p rest ih =>
    have hstep : applyPairs b (p :: rest) = applyPairs ((b.enter p.1).exit p.2) rest := rfl
    rw [hstep]
    obtain ⟨h1, h2⟩ := ih ((b.enter p.1).exit p.2)
    constructor
    · rw [h1]
      simp [Beam.enter, Beam.exit]
      omega
    · rw [h2]
      simp [Beam.enter, Beam.exit]
      omega

/-- C10: re-entering a beam whose activation is still open (starts one
longer than stops) appends the new start without removing the abandoned
one; once the scope finally exits the starts sequence is permanently one
longer than the stops sequence, so `timings()` keeps raising the misuse
error after any number of further balanced activations, until `clear()`
resets the beam. -/
theorem C10_reentrant_activation_poisons_timings (b : Beam) (t t2 : Time)
    (hopen : b.start_times.length = b.end_times.length + 1) :
    (b.enter t).start_times = b.start_times ++ [t] ∧
      ((b.enter t).exit t2).start_times.length
        = ((b.enter t).exit t2).end_times.length + 1 ∧
      (∀ ps : List (Time × Time),
        (applyPairs ((b.enter t).exit t2) ps).timings
          = Except.error concurrentAccessMsg) ∧
      (∀ ps : List (Time × Time),
        (applyPairs ((b.enter t).exit t2) ps).clear.timings = Except.ok []) := by
  refine ⟨rfl, ?_, ?_, ?_⟩
  · simp [Beam.enter, Beam.exit]
    omega
  · intro ps
    obtain ⟨h1, h2⟩ := applyPairs_lengths ps ((b.enter t).exit t2)
    have hne : (applyPairs ((b.enter t).exit t2) ps).start_times.length
        ≠ (applyPairs ((b.enter t).exit t2) ps).end_times.length := by
      rw [h1, h2]
      simp [Beam.enter, Beam.exit]
      omega
    simp [Beam.timings, Beam.zipped, hne, Except.map]
  · intro ps
    simp [Beam.clear, Beam.timings, Beam.zipped, Except.map]

/-- Witness for C10: a beam left open once, re-entered and exited, then
used once more in a balanced way. -/
theorem C10_reentrant_activation_poisons_timings_witness :
    openBeam.start_times.length = openBeam.end_times.length + 1 ∧
      (applyPairs ((openBeam.enter 2).exit 3) [(4, 5)]).timings
        = Except.error concurrentAccessMsg := by
  refine ⟨rfl, ?_⟩
  exact (C10_reentrant_activation_poisons_timings openBeam 2 3 rfl).2.2.1 [(4, 5)]

/-! ## C2 -/

theorem parent_linkChild_ne (L : List Ctx) (h n j : Nat) (hjn : j ≠ n) :
    ((linkChild L h n).getD j default).parent = (L.getD j default).parent := by
  unfold linkChild
  simp only [getD_setCtx, length_setCtx]
  rw [if_neg (fun hcon => hjn hcon.1.symm)]
  by_cases hcase : h = j ∧ h < L.length
  · obtain ⟨rfl, hlt⟩ := hcase
    simp [hlt]
  · simp [hcase]

theorem pop_ctxs (s : Store) : s.pop.ctxs = s.ctxs := by
  cases hh : s.head with
  | none => simp [Store.pop, hh]
  | some h => cases hpar : s.parentOf h <;> simp [Store.pop, hh, hpar]

/-- Once a parent link is written, no operation ever changes it. -/
theorem parentOf_applyOp_preserved (s : Store) (op : Op) (i p : Nat)
    (h : s.parentOf i = some p) : (applyOp s op).parentOf i = some p := by
  have hbound : i < s.ctxs.length := by
    by_contra hge
    rw [show s.parentOf i = none from by
      show (s.ctxs.getD i default).parent = none
      rw [getD_oob _ _ (Nat.le_of_not_lt hge), default_ctx_parent]] at h
    cases h
  cases op with
  | pushNew nm =>
    cases hr : s.root with
    | none =>
      have happ : applyOp s (Op.pushNew nm) =
          { s with ctxs := s.ctxs ++ [{ name := nm, parent := none, child := none, beams := [] }],
                   root := some s.ctxs.length, head := some s.ctxs.length } := by
        simp [applyOp, Store.newCtx, Store.push, hr]
      rw [happ]
      show ((s.ctxs ++ [_]).getD i default).parent = some p
      rw [getD_append_lt _ _ _ hbound]
      exact h
    | some r =>
      cases hh : s.head with
      | none =>
        have happ : applyOp s (Op.pushNew nm) =
            { s with ctxs := s.ctxs ++ [{ name := nm, parent := none, child := none, beams := [] }] } := by
          simp [applyOp, Store.newCtx, Store.push, hr, hh]
        rw [happ]
        show ((s.ctxs ++ [_]).getD i default).parent = some p
        rw [getD_append_lt _ _ _ hbound]
        exact h
      | some hd =>
        have happ : applyOp s (Op.pushNew nm) =
            { s with
                ctxs := linkChild
                  (s.ctxs ++ [{ name := nm, parent := none, child := none, beams := [] }])
                  hd s.ctxs.length,
                head := some s.ctxs.length } := by
          simp [applyOp, Store.newCtx, Store.push, hr, hh]
        rw [happ]
        show ((linkChild (s.ctxs ++ [_]) hd s.ctxs.length).getD i default).parent = some p
        rw [parent_linkChild_ne _ _ _ _ (Nat.ne_of_lt hbound),
          getD_append_lt _ _ _ hbound]
        exact h
  | popOp =>
    show s.pop.parentOf i = some p
    have hctxs : s.pop.ctxs = s.ctxs := pop_ctxs s
    show (s.pop.ctxs.getD i default).parent = some p
    rw [hctxs]
    exact h
  | newBeam nm u => exact h
  | trackBeam bid => rw [show applyOp s (Op.trackBeam bid) = s.track_beam bid from rfl,
      parentOf_track_beam]; exact h
  | beamEnter bid t => exact h
  | beamExit bid t => exact h
  | beamClear bid => exact h

/-- C2 counterexample (closed): in the ordinary nested-use sequence
`with A: (with B: pass); (with C: pass)` — push A, push B, pop, push C —
node A's child link is first `B` and is then reassigned to `C`.  The claim
that child links are "assigned at most once and never reassigned to a
different node" is therefore false on the code. -/
theorem C2_child_link_reassigned_counterexample :
    (applyOps [Op.pushNew "A", Op.pushNew "B"] (initStore none)).childOf 0 = some 1 ∧
      (applyOps [Op.pushNew "A", Op.pushNew "B", Op.popOp, Op.pushNew "C"]
        (initStore none)).childOf 0 = some 2 ∧
      (some 1 : Option Nat) ≠ some 2 :=
  ⟨rfl, rfl, by decide⟩

/-- C2 amended: in every reachable store state, a `TraceContext`'s parent
link is written at most once (once set, no push/pop/track/beam operation
changes it) and always points to an earlier-allocated node, so the chain
from any node to its root is acyclic and finite (walking parent links from
node `i` reaches a parentless root within any fuel exceeding `i`).  Child
links, by contrast, can be reassigned when a sibling context is pushed
after its predecessor popped (see the counterexample). -/
theorem C2_parent_links_write_once_acyclic (ops : List Op) (m : Option Nat) :
    (∀ i p, (applyOps ops (initStore m)).parentOf i = some p →
      ∀ op, (applyOp (applyOps ops (initStore m)) op).parentOf i = some p) ∧
    (∀ i p, (applyOps ops (initStore m)).parentOf i = some p → p < i) ∧
    (∀ i fuel, i < fuel →
      ((applyOps ops (initStore m)).ancestorStop fuel i).isSome = true) := by
  refine ⟨?_, ?_, ?_⟩
  · intro i p hp op
    exact parentOf_applyOp_preserved _ op i p hp
  · intro i p hp
    exact ((inv_reachable ops m).1 i p hp).1
  · have hdec := (inv_reachable ops m).1
    intro i fuel
    induction fuel generalizing i with
    | zero => omega
    | succ f ih =>
      intro hif
      cases hpar : (applyOps ops (initStore m)).parentOf i with
      | none => simp [Store.ancestorStop, hpar]
      | some p =>
        have hlt := (hdec i p hpar).1
        simp only [Store.ancestorStop, hpar]
        exact ih p (by omega)

/-- Witness for C2's amended statement at the two-level chain A–B. -/
theorem C2_parent_links_write_once_acyclic_witness :
    (applyOps [Op.pushNew "A", Op.pushNew "B"] (initStore none)).parentOf 1 = some 0 ∧
      (applyOp (applyOps [Op.pushNew "A", Op.pushNew "B"] (initStore none))
        Op.popOp).parentOf 1 = some 0 ∧
      0 < 1 ∧
      ((applyOps [Op.pushNew "A", Op.pushNew "B"] (initStore none)).ancestorStop 2 1).isSome
        = true := by
  have h := C2_parent_links_write_once_acyclic [Op.pushNew "A", Op.pushNew "B"] none
  exact ⟨rfl, h.1 1 0 rfl Op.popOp, h.2.1 1 0 rfl, h.2.2 1 2 (by omega)⟩

/-! ## C3 -/

/-- C3 counterexample (closed): a trace tracking one beam fully unwinds
into history; clearing the live beam afterwards changes what a later
`get_trace` returns.  The retained history holds live references, and the
deep copy happens inside the `beams` property at query time, so the claim
that mutating a live beam after unwinding "does not change the beam
snapshots that a later getTrace returns" is false on the code. -/
theorem C3_history_mutation_visible_counterexample :
    singleTraceStore.history = [0] ∧
      singleTraceStore.get_trace none none
        = Except.ok [((Beam.init "b" "u").enter 1).exit 2] ∧
      (singleTraceStore.mutateBeam 0 Beam.clear).get_trace none none
        = Except.ok [Beam.init "b" "u"] ∧
      (singleTraceStore.mutateBeam 0 Beam.clear).get_trace none none
        ≠ singleTraceStore.get_trace none none := by
  refine ⟨rfl, rfl, rfl, ?_⟩
  rw [show (singleTraceStore.mutateBeam 0 Beam.clear).get_trace none none
      = Except.ok [Beam.init "b" "u"] from rfl,
    show singleTraceStore.get_trace none none
      = Except.ok [((Beam.init "b" "u").enter 1).exit 2] from rfl]
  simp [Beam.init, Beam.clear, Beam.enter, Beam.exit]

/-- C3 amended: the deep copies are taken at query time, not when the chain
unwinds into history: a context's `beams` snapshot list equals the current
values of the live beams it references, so a mutation of a live beam made
after its chain unwound into history is reflected in the snapshots a later
`get_trace` returns (counterexample above), while any snapshot list already
returned is an independent value that the mutation cannot alter. -/
theorem C3_snapshots_taken_at_query_time (s : Store) (nid bid : Nat) (f : Beam → Beam)
    (hb : bid < s.beamArena.length) :
    (s.mutateBeam bid f).beamsSnap nid =
      (s.ctxAt nid).beams.map
        (fun j => if j = bid then f (s.beamAt bid) else s.beamAt j) := by
  unfold Store.beamsSnap
  have hctx : (s.mutateBeam bid f).ctxAt nid = s.ctxAt nid := rfl
  rw [hctx]
  refine List.map_congr_left ?_
  intro j _
  by_cases hjb : j = bid
  · rw [if_pos hjb, hjb]
    show (s.mutateBeam bid f).beamAt bid = f (s.beamAt bid)
    simp [Store.mutateBeam, Store.beamAt, List.getD_eq_getElem?_getD,
      List.getElem?_set, hb]
  · rw [if_neg hjb]
    show (s.mutateBeam bid f).beamAt j = s.beamAt j
    simp [Store.mutateBeam, Store.beamAt, List.getD_eq_getElem?_getD,
      List.getElem?_set_ne (fun hcon => hjb hcon.symm)]

/-- Witness for C3's amended statement: clearing the one live beam of the
single-trace scenario is visible in the snapshot of context 0. -/
theorem C3_snapshots_taken_at_query_time_witness :
    0 < singleTraceStore.beamArena.length ∧
      (singleTraceStore.mutateBeam 0 Beam.clear).beamsSnap 0 =
        (singleTraceStore.ctxAt 0).beams.map
          (fun j => if j = 0 then Beam.clear (singleTraceStore.beamAt 0)
            else singleTraceStore.beamAt j) :=
  ⟨by decide,
   C3_snapshots_taken_at_query_time singleTraceStore 0 0 Beam.clear (by decide)⟩

/-! ## C4 -/

theorem exists_concat_of_getLast? {l : List Nat} {h : Nat}
    (hl : l.getLast? = some h) : ∃ l', l = l' ++ [h] := by
  rcases List.eq_nil_or_concat l with h0 | ⟨L, b, hLb⟩
  · rw [h0] at hl; cases hl
  · rw [List.concat_eq_append] at hLb
    subst hLb
    rw [List.getLast?_concat] at hl
    cases hl
    exact ⟨L, rfl⟩

/-- C4: `pop()` on a store with no head is the identity (a silent no-op);
otherwise it moves `head` to the popped node's parent without modifying any
context node (in particular no child link is cleared), and exactly when the
new head is none — i.e. the popped node has no parent, in which case it is
the root — `root` is cleared and the popped node is appended to the bounded
history, evicting the oldest entry first when the bound is reached. -/
theorem C4_pop_semantics (s : Store) (hInv : Inv s) :
    (s.head = none → s.pop = s) ∧
      (∀ h, s.head = some h →
        s.pop.head = s.parentOf h ∧ s.pop.ctxs = s.ctxs ∧
          (s.parentOf h = none →
            s.root = some h ∧ s.pop.root = none ∧
              s.pop.history = appendBounded s.maxlen s.history h) ∧
          (∀ p, s.parentOf h = some p →
            s.pop.head = some p ∧ s.pop.root = s.root ∧
              s.pop.history = s.history)) := by
  obtain ⟨hp, hc, l, hroot, hhead, hfirst, hchain, hbound⟩ := hInv
  constructor
  · intro hh
    simp [Store.pop, hh]
  · intro h hh
    refine ⟨?_, pop_ctxs s, ?_, ?_⟩
    · cases hpar : s.parentOf h <;> simp [Store.pop, hh, hpar]
    · intro hpar
      have hlast : l.getLast? = some h := by rw [← hhead, hh]
      obtain ⟨l', rfl⟩ := exists_concat_of_getLast? hlast
      have hl'nil : l' = [] := by
        by_contra hne
        rw [List.chain'_append] at hchain
        obtain ⟨x, hx⟩ : ∃ x, l'.getLast? = some x := by
          cases hgl : l'.getLast? with
          | some x => exact ⟨x, rfl⟩
          | none => exact absurd (List.getLast?_eq_none_iff.mp hgl) hne
        have := hchain.2.2 x hx h (by simp)
        rw [this] at hpar
        cases hpar
      subst hl'nil
      refine ⟨?_, ?_, ?_⟩
      · rw [hroot]
        simp
      · simp [Store.pop, hh, hpar]
      · simp [Store.pop, hh, hpar]
    · intro p hpar
      refine ⟨?_, ?_, ?_⟩ <;> simp [Store.pop, hh, hpar]

/-- Witness for C4 on a one-node chain: popping the sole context empties
head and root and appends node 0 to history. -/
theorem C4_pop_semantics_witness :
    (applyOps [Op.pushNew "a"] (initStore none)).head = some 0 ∧
      (applyOps [Op.pushNew "a"] (initStore none)).pop.head = none ∧
      (applyOps [Op.pushNew "a"] (initStore none)).pop.root = none ∧
      (applyOps [Op.pushNew "a"] (initStore none)).pop.history = [0] := by
  have h := (C4_pop_semantics (applyOps [Op.pushNew "a"] (initStore none))
    (inv_reachable [Op.pushNew "a"] none)).2 0 rfl
  refine ⟨rfl, ?_, ?_, ?_⟩
  · rw [h.1]
    rfl
  · exact (h.2.2.1 rfl).2.1
  · rw [(h.2.2.1 rfl).2.2]
    rfl

/-! ## C5 -/

/-- Appending to a full bounded deque keeps exactly the most recent `M`
entries: it is the `M`-suffix of the unbounded append. -/
theorem appendBounded_drop (M : Nat) (U : List Nat) (x : Nat) :
    appendBounded (some M) (U.drop (U.length - M)) x
      = (U ++ [x]).drop ((U ++ [x]).length - M) := by
  show (U.drop (U.length - M) ++ [x]).drop ((U.drop (U.length - M) ++ [x]).length - M)
    = (U ++ [x]).drop ((U ++ [x]).length - M)
  by_cases hM : U.length < M
  · have h1 : U.length - M = 0 := by omega
    rw [h1, List.drop_zero]
  · by_cases hM0 : M = 0
    · subst hM0
      simp
    · have hMle : M ≤ U.length := by omega
      have hDM : (U.drop (U.length - M)).length = M := by
        rw [List.length_drop]
        omega
      have hidx : (U.drop (U.length - M) ++ [x]).length - M = 1 := by
        rw [List.length_append, hDM]
        simp
      have hidx2 : (U ++ [x]).length - M = U.length + 1 - M := by
        simp
      rw [hidx, hidx2,
        List.drop_append_of_le_length (show 1 ≤ (U.drop (U.length - M)).length by omega),
        List.drop_drop,
        List.drop_append_of_le_length (show U.length + 1 - M ≤ U.length by omega)]
      have heq : U.length - M + 1 = U.length + 1 - M := by omega
      rw [heq]

theorem simBounded_applyOp {M : Nat} {s1 s2 : Store} (op : Op)
    (h : SimBounded M s1 s2) : SimBounded M (applyOp s1 op) (applyOp s2 op) := by
  obtain ⟨hctx, hba, hroot, hhead, hm1, hm2, hhist⟩ := h
  cases op with
  | pushNew nm =>
    cases hr : s1.root with
    | none =>
      have hr2 : s2.root = none := by rw [hroot, hr]
      have e1 : applyOp s1 (Op.pushNew nm) =
          { s1 with ctxs := s1.ctxs ++ [{ name := nm, parent := none, child := none, beams := [] }],
                    root := some s1.ctxs.length, head := some s1.ctxs.length } := by
        simp [applyOp, Store.newCtx, Store.push, hr]
      have e2 : applyOp s2 (Op.pushNew nm) =
          { s2 with ctxs := s2.ctxs ++ [{ name := nm, parent := none, child := none, beams := [] }],
                    root := some s2.ctxs.length, head := some s2.ctxs.length } := by
        simp [applyOp, Store.newCtx, Store.push, hr2]
      rw [e1, e2]
      exact ⟨by rw [hctx], hba, by rw [hctx], by rw [hctx], hm1, hm2, hhist⟩
    | some r =>
      have hr2 : s2.root = some r := by rw [hroot, hr]
      cases hh : s1.head with
      | none =>
        have hh2 : s2.head = none := by rw [hhead, hh]
        have e1 : applyOp s1 (Op.pushNew nm) =
            { s1 with ctxs := s1.ctxs ++ [{ name := nm, parent := none, child := none, beams := [] }] } := by
          simp [applyOp, Store.newCtx, Store.push, hr, hh]
        have e2 : applyOp s2 (Op.pushNew nm) =
            { s2 with ctxs := s2.ctxs ++ [{ name := nm, parent := none, child := none, beams := [] }] } := by
          simp [applyOp, Store.newCtx, Store.push, hr2, hh2]
        rw [e1, e2]
        exact ⟨by rw [hctx], hba, hroot, hhead, hm1, hm2, hhist⟩
      | some hd =>
        have hh2 : s2.head = some hd := by rw [hhead, hh]
        have e1 : applyOp s1 (Op.pushNew nm) =
            { s1 with
                ctxs := linkChild
                  (s1.ctxs ++ [{ name := nm, parent := none, child := none, beams := [] }])
                  hd s1.ctxs.length,
                head := some s1.ctxs.length } := by
          simp [applyOp, Store.newCtx, Store.push, hr, hh]
        have e2 : applyOp s2 (Op.pushNew nm) =
            { s2 with
                ctxs := linkChild
                  (s2.ctxs ++ [{ name := nm, parent := none, child := none, beams := [] }])
                  hd s2.ctxs.length,
                head := some s2.ctxs.length } := by
          simp [applyOp, Store.newCtx, Store.push, hr2, hh2]
        rw [e1, e2]
        exact ⟨by rw [hctx], hba, hroot, by rw [hctx], hm1, hm2, hhist⟩
  | popOp =>
    cases hh : s1.head with
    | none =>
      have hh2 : s2.head = none := by rw [hhead, hh]
      have e1 : applyOp s1 Op.popOp = s1 := by simp [applyOp, Store.pop, hh]
      have e2 : applyOp s2 Op.popOp = s2 := by simp [applyOp, Store.pop, hh2]
      rw [e1, e2]
      exact ⟨hctx, hba, hroot, hhead, hm1, hm2, hhist⟩
    | some hd =>
      have hh2 : s2.head = some hd := by rw [hhead, hh]
      have hpeq : s2.parentOf hd = s1.parentOf hd := by
        simp [Store.parentOf, Store.ctxAt, hctx]
      cases hpar : s1.parentOf hd with
      | none =>
        have hpar2 : s2.parentOf hd = none := by rw [hpeq, hpar]
        have e1 : applyOp s1 Op.popOp =
            { s1 with head := none, root := none,
                      history := appendBounded s1.maxlen s1.history hd } := by
          simp [applyOp, Store.pop, hh, hpar]
        have e2 : applyOp s2 Op.popOp =
            { s2 with head := none, root := none,
                      history := appendBounded s2.maxlen s2.history hd } := by
          simp [applyOp, Store.pop, hh2, hpar2]
        rw [e1, e2]
        refine ⟨hctx, hba, rfl, rfl, hm1, hm2, ?_⟩
        show appendBounded s2.maxlen s2.history hd = _
        rw [hm2, hm1, hhist]
        show appendBounded (some M) (s1.history.drop (s1.history.length - M)) hd
          = (appendBounded none s1.history hd).drop
              ((appendBounded none s1.history hd).length - M)
        rw [show appendBounded none s1.history hd = s1.history ++ [hd] from rfl]
        exact appendBounded_drop M s1.history hd
      | some p =>
        have hpar2 : s2.parentOf hd = some p := by rw [hpeq, hpar]
        have e1 : applyOp s1 Op.popOp = { s1 with head := some p } := by
          simp [applyOp, Store.pop, hh, hpar]
        have e2 : applyOp s2 Op.popOp = { s2 with head := some p } := by
          simp [applyOp, Store.pop, hh2, hpar2]
        rw [e1, e2]
        exact ⟨hctx, hba, hroot, rfl, hm1, hm2, hhist⟩
  | newBeam nm u =>
    exact ⟨hctx, by simp [applyOp, hba], hroot, hhead, hm1, hm2, hhist⟩
  | trackBeam bid =>
    cases hh : s1.head with
    | none =>
      have hh2 : s2.head = none := by rw [hhead, hh]
      have e1 : applyOp s1 (Op.trackBeam bid) = s1 := by
        simp [applyOp, Store.track_beam, hh]
      have e2 : applyOp s2 (Op.trackBeam bid) = s2 := by
        simp [applyOp, Store.track_beam, hh2]
      rw [e1, e2]
      exact ⟨hctx, hba, hroot, hhead, hm1, hm2, hhist⟩
    | some hd =>
      have hh2 : s2.head = some hd := by rw [hhead, hh]
      have e1 : applyOp s1 (Op.trackBeam bid) =
          { s1 with ctxs := setCtx s1.ctxs hd (fun c => { c with beams := c.beams ++ [bid] }) } := by
        simp [applyOp, Store.track_beam, hh]
      have e2 : applyOp s2 (Op.trackBeam bid) =
          { s2 with ctxs := setCtx s2.ctxs hd (fun c => { c with beams := c.beams ++ [bid] }) } := by
        simp [applyOp, Store.track_beam, hh2]
      rw [e1, e2]
      exact ⟨by rw [hctx], hba, hroot, hhead, hm1, hm2, hhist⟩
  | beamEnter bid t =>
    exact ⟨hctx, by simp [applyOp, Store.mutateBeam, Store.beamAt, hba], hroot,
      hhead, hm1, hm2, hhist⟩
  | beamExit bid t =>
    exact ⟨hctx, by simp [applyOp, Store.mutateBeam, Store.beamAt, hba], hroot,
      hhead, hm1, hm2, hhist⟩
  | beamClear bid =>
    exact ⟨hctx, by simp [applyOp, Store.mutateBeam, Store.beamAt, hba], hroot,
      hhead, hm1, hm2, hhist⟩

theorem simBounded_applyOps (M : Nat) (ops : List Op) {s1 s2 : Store}
    (h : SimBounded M s1 s2) :
    SimBounded M (applyOps ops s1) (applyOps ops s2) := by
  induction ops generalizing s1 s2 with
  | nil => exact h
  | cons op rest ih => exact ih (simBounded_applyOp op h)

/-- C5: running any operation sequence against the store configured with
maximum history size `M` yields exactly the suffix of most recent `M`
entries of the history the unbounded store would hold, in the same
(completion) order; in particular once at least `M` chains have completed
the bounded history has exactly `M` entries. -/
theorem C5_history_bounded_to_recent (ops : List Op) (M : Nat) :
    (applyOps ops (initStore (some M))).history
        = (applyOps ops (initStore none)).history.drop
            ((applyOps ops (initStore none)).history.length - M) ∧
      (M ≤ (applyOps ops (initStore none)).history.length →
        (applyOps ops (initStore (some M))).history.length = M) := by
  have hsim : SimBounded M (applyOps ops (initStore none))
      (applyOps ops (initStore (some M))) := by
    refine simBounded_applyOps M ops ?_
    exact ⟨rfl, rfl, rfl, rfl, rfl, rfl, by simp [initStore]⟩
  refine ⟨hsim.2.2.2.2.2.2, ?_⟩
  intro hM
  rw [hsim.2.2.2.2.2.2, List.length_drop]
  omega

/-- Witness for C5: two completed one-node chains with maximum history 1
keep only the most recent chain (node 1). -/
theorem C5_history_bounded_to_recent_witness :
    (applyOps [Op.pushNew "t1", Op.popOp, Op.pushNew "t2", Op.popOp]
        (initStore none)).history = [0, 1] ∧
      1 ≤ (applyOps [Op.pushNew "t1", Op.popOp, Op.pushNew "t2", Op.popOp]
        (initStore none)).history.length ∧
      (applyOps [Op.pushNew "t1", Op.popOp, Op.pushNew "t2", Op.popOp]
        (initStore (some 1))).history = [1] ∧
      (applyOps [Op.pushNew "t1", Op.popOp, Op.pushNew "t2", Op.popOp]
        (initStore (some 1))).history.length = 1 := by
  have h := C5_history_bounded_to_recent
    [Op.pushNew "t1", Op.popOp, Op.pushNew "t2", Op.popOp] 1
  refine ⟨rfl, by decide, ?_, h.2 (by decide)⟩
  rw [h.1]
  rfl

/-! ## C9 -/

/-- With strictly increasing child links, the chain walk is independent of
the fuel once the fuel exceeds the number of contexts left to visit: the
loop always runs the chain to its end. -/
theorem chainNodes_fuel_irrelevant (s : Store) (hc : childInc s) :
    ∀ fuel1 fuel2 nid, s.ctxs.length - nid < fuel1 →
      s.ctxs.length - nid < fuel2 →
      s.chainNodes fuel1 (some nid) = s.chainNodes fuel2 (some nid) := by
  intro fuel1
  induction fuel1 with
  | zero =>
    intro fuel2 nid h1
    omega
  | succ f ih =>
    intro fuel2 nid h1 h2
    cases fuel2 with
    | zero => omega
    | succ g =>
      simp only [Store.chainNodes]
      congr 1
      cases hch : s.childOf nid with
      | none => simp [Store.chainNodes]
      | some q =>
        obtain ⟨hlt, hqlen⟩ := hc nid q hch
        exact ih g q (by omega) (by omega)

/-- The flattening loop concatenates exactly the per-node snapshots of the
chain-walk nodes, in walk order. -/
theorem flattenFrom_eq_chainNodes (s : Store) :
    ∀ fuel o, s.flattenFrom fuel o = ((s.chainNodes fuel o).map s.beamsSnap).flatten := by
  intro fuel
  induction fuel with
  | zero =>
    intro o
    cases o <;> simp [Store.flattenFrom, Store.chainNodes]
  | succ f ih =>
    intro o
    cases o with
    | none => simp [Store.flattenFrom, Store.chainNodes]
    | some nid =>
      simp only [Store.flattenFrom, Store.chainNodes, List.map_cons, List.flatten_cons]
      rw [ih]

/-- C9: `get_trace` flattens a selected root by walking child links from
the root to the innermost descendant and concatenating each node's beam
snapshots in chain order: the walked node list is the node followed by the
full chain of its child, and when a node has a child all of the node's
beams precede all of the child's chain's beams in the flattened output. -/
theorem C9_flatten_root_to_leaf_order (s : Store) (hc : childInc s) (nid : Nat) :
    s.flattenFrom s.flatFuel (some nid)
        = ((s.chainNodes s.flatFuel (some nid)).map s.beamsSnap).flatten ∧
      s.chainNodes s.flatFuel (some nid)
        = nid :: s.chainNodes s.flatFuel (s.childOf nid) ∧
      (∀ c, s.childOf nid = some c →
        s.flattenFrom s.flatFuel (some nid)
          = s.beamsSnap nid ++ s.flattenFrom s.flatFuel (some c)) := by
  have hff : s.flatFuel = s.ctxs.length + 1 := rfl
  refine ⟨flattenFrom_eq_chainNodes s _ _, ?_, ?_⟩
  · rw [hff]
    simp only [Store.chainNodes]
    congr 1
    cases hch : s.childOf nid with
    | none => simp [Store.chainNodes]
    | some q =>
      obtain ⟨hlt, hqlen⟩ := hc nid q hch
      exact chainNodes_fuel_irrelevant s hc _ _ q (by omega) (by omega)
  · intro c hch
    rw [hff, flattenFrom_eq_chainNodes, flattenFrom_eq_chainNodes]
    simp only [Store.chainNodes]
    rw [hch]
    simp only [List.map_cons, List.flatten_cons]
    congr 1
    obtain ⟨hlt, hclen⟩ := hc nid c hch
    rw [chainNodes_fuel_irrelevant s hc s.ctxs.length (s.ctxs.length + 1) c
      (by omega) (by omega)]
    simp only [Store.chainNodes, List.map_cons, List.flatten_cons]

/-- Witness for C9 on the spec's nested scenario: the root "outer" has
child "inner", and flattening returns outer's beam before inner's, matching
the expected `[b1, b2]` ordering of `get_trace`. -/
theorem C9_flatten_root_to_leaf_order_witness :
    scenarioStore.childOf 0 = some 1 ∧
      scenarioStore.flattenFrom scenarioStore.flatFuel (some 0)
        = scenarioStore.beamsSnap 0
            ++ scenarioStore.flattenFrom scenarioStore.flatFuel (some 1) ∧
      scenarioStore.get_trace none none
        = Except.ok (scenarioStore.beamsSnap 0 ++ scenarioStore.beamsSnap 1) := by
  refine ⟨rfl, ?_, rfl⟩
  exact (C9_flatten_root_to_leaf_order scenarioStore
    (inv_reachable scenarioOps none).2.1 0).2.2 1 rfl

/-! ## C7 -/

theorem get_trace_empty (s : Store) (name : Option String) (idx : Option Int)
    (h : s.history = []) : s.get_trace name idx = Except.ok [] := by
  simp [Store.get_trace, h]

theorem get_trace_name_eq (s : Store) (X : String) (hne : s.history ≠ []) :
    s.get_trace (some X) none =
      Except.ok (s.flattenFrom s.flatFuel
        (s.history.reverse.find? (fun nid => some (s.ctxName nid) = some X))) := by
  simp [Store.get_trace, hne, find_first]

theorem find?_name_none (s : Store) (X : String) (l : List Nat)
    (h : ∀ nid ∈ l, s.ctxName nid ≠ X) :
    l.reverse.find? (fun nid => some (s.ctxName nid) = some X) = none := by
  apply List.find?_eq_none.mpr
  intro x hx hcon
  rw [decide_eq_true_eq] at hcon
  exact h x (List.mem_reverse.mp hx) (Option.some_injective _ hcon)

/-- C7: a name lookup never raises; it returns the empty sequence when no
history entry bears the name (or the history is empty); and when entries
named `X` exist it selects the most recently completed one — the last
matching entry of the history list — and returns its flattened chain. -/
theorem C7_get_trace_by_name (s : Store) (X : String) :
    (∃ l, s.get_trace (some X) none = Except.ok l) ∧
      ((∀ nid ∈ s.history, s.ctxName nid ≠ X) →
        s.get_trace (some X) none = Except.ok []) ∧
      (∀ pre nid post, s.history = pre ++ nid :: post → s.ctxName nid = X →
        (∀ m ∈ post, s.ctxName m ≠ X) →
        s.get_trace (some X) none
          = Except.ok (s.flattenFrom s.flatFuel (some nid))) := by
  by_cases hh : s.history = []
  · refine ⟨⟨[], get_trace_empty s _ _ hh⟩, fun _ => get_trace_empty s _ _ hh, ?_⟩
    intro pre nid post hsplit _ _
    rw [hh] at hsplit
    simp at hsplit
  · have heq := get_trace_name_eq s X hh
    refine ⟨⟨_, heq⟩, ?_, ?_⟩
    · intro hnone
      rw [heq, find?_name_none s X s.history hnone]
      simp [Store.flattenFrom]
    · intro pre nid post hsplit hname hpost
      have hfind : s.history.reverse.find?
          (fun nid2 => some (s.ctxName nid2) = some X) = some nid := by
        rw [hsplit, List.reverse_append, List.reverse_cons, List.find?_append,
          List.find?_append]
        have h1 : post.reverse.find?
            (fun nid2 => some (s.ctxName nid2) = some X) = none := by
          apply List.find?_eq_none.mpr
          intro x hx hcon
          rw [decide_eq_true_eq] at hcon
          exact hpost x (List.mem_reverse.mp hx) (Option.some_injective _ hcon)
        rw [h1, Option.none_or]
        have h2 : [nid].find? (fun nid2 => some (s.ctxName nid2) = some X)
            = some nid := by
          apply List.find?_cons_of_pos
          rw [decide_eq_true_eq, hname]
        rw [h2]
        rfl
      rw [heq, hfind]

/-- Witness for C7 on two completed traces both named "X": the lookup picks
the later one (node 1) and returns its beam m2. -/
theorem C7_get_trace_by_name_witness :
    dupNameStore.history = [0, 1] ∧ dupNameStore.ctxName 1 = "X" ∧
      dupNameStore.get_trace (some "X") none
        = Except.ok (dupNameStore.flattenFrom dupNameStore.flatFuel (some 1)) ∧
      dupNameStore.get_trace (some "X") none = Except.ok [Beam.init "m2" "w2"] := by
  refine ⟨rfl, rfl, ?_, rfl⟩
  exact (C7_get_trace_by_name dupNameStore "X").2.2 [0] 1 [] rfl rfl
    (fun m hm => absurd hm (List.not_mem_nil m))

/-! ## C8 -/

theorem pyGet_none_iff (l : List Nat) (i : Int) :
    pyGet l i = none ↔ ¬((-(l.length : Int)) ≤ i ∧ i < (l.length : Int)) := by
  unfold pyGet
  by_cases h1 : 0 ≤ i ∧ i < (l.length : Int)
  · rw [if_pos h1]
    have hne : l.get? i.toNat ≠ none := by
      intro hcon
      rw [List.get?_eq_none] at hcon
      omega
    constructor
    · intro hcon
      exact absurd hcon hne
    · intro hcon
      exact absurd ⟨by omega, h1.2⟩ hcon
  · rw [if_neg h1]
    by_cases h2 : (-(l.length : Int)) ≤ i ∧ i < 0
    · rw [if_pos h2]
      have hne : l.get? (i + l.length).toNat ≠ none := by
        intro hcon
        rw [List.get?_eq_none] at hcon
        omega
      constructor
      · intro hcon
        exact absurd hcon hne
      · intro hcon
        exact absurd ⟨h2.1, by omega⟩ hcon
    · rw [if_neg h2]
      constructor
      · intro _ hcon
        omega
      · intro _
        rfl

theorem get_trace_idx_eq (s : Store) (i : Int) (hne : s.history ≠ []) :
    s.get_trace none (some i) =
      match pyGet s.history i with
      | none => Except.error indexErrorMsg
      | some nid => Except.ok (s.flattenFrom s.flatFuel (some nid)) := by
  simp [Store.get_trace, hne]

/-- C8 counterexample (closed): on an EMPTY history, `get_trace` with an
explicitly supplied (necessarily invalid) index returns `ok []` rather than
raising: the empty-history check short-circuits before the deque is ever
indexed.  The claim that an invalid index fails with an out-of-range error
"including when the history is empty" is therefore false on the code. -/
theorem C8_empty_history_index_counterexample :
    (initStore none).history = [] ∧
      (initStore none).get_trace none (some 0) = Except.ok [] ∧
      ∀ e, (initStore none).get_trace none (some 0) ≠ Except.error e := by
  refine ⟨rfl, rfl, ?_⟩
  intro e hcon
  rw [show (initStore none).get_trace none (some 0) = Except.ok [] from rfl] at hcon
  cases hcon

/-- C8 amended: on a NON-empty history an explicitly supplied index outside
Python's valid range `-len ≤ i < len` fails with the out-of-range error
while a valid index selects that history position directly — in contrast to
the name lookup, which never errors; but on an empty history any index
silently yields the empty sequence. -/
theorem C8_index_lookup_policy (s : Store) (i : Int) :
    (s.history = [] → s.get_trace none (some i) = Except.ok []) ∧
      (s.history ≠ [] →
        (¬((-(s.history.length : Int)) ≤ i ∧ i < (s.history.length : Int)) →
          s.get_trace none (some i) = Except.error indexErrorMsg) ∧
        (∀ nid, pyGet s.history i = some nid →
          s.get_trace none (some i)
            = Except.ok (s.flattenFrom s.flatFuel (some nid))) ∧
        (((-(s.history.length : Int)) ≤ i ∧ i < (s.history.length : Int)) →
          ∃ l, s.get_trace none (some i) = Except.ok l)) := by
  refine ⟨fun hh => get_trace_empty s _ _ hh, fun hne => ⟨?_, ?_, ?_⟩⟩
  · intro hinvalid
    rw [get_trace_idx_eq s i hne, (pyGet_none_iff s.history i).mpr hinvalid]
  · intro nid hnid
    rw [get_trace_idx_eq s i hne, hnid]
  · intro hvalid
    cases hp : pyGet s.history i with
    | none =>
      exact absurd ((pyGet_none_iff s.history i).mp hp) (not_not.mpr hvalid)
    | some nid =>
      exact ⟨_, by rw [get_trace_idx_eq s i hne, hp]⟩

/-- Witness for C8 on a one-entry history: index 5 is out of range and
errors, index 0 is valid and returns the trace. -/
theorem C8_index_lookup_policy_witness :
    (applyOps [Op.pushNew "a", Op.popOp] (initStore none)).history = [0] ∧
      (applyOps [Op.pushNew "a", Op.popOp] (initStore none)).get_trace none (some 5)
        = Except.error indexErrorMsg ∧
      (applyOps [Op.pushNew "a", Op.popOp] (initStore none)).get_trace none (some 0)
        = Except.ok ((applyOps [Op.pushNew "a", Op.popOp] (initStore none)).flattenFrom
            ((applyOps [Op.pushNew "a", Op.popOp] (initStore none)).flatFuel) (some 0)) := by
  have h := (C8_index_lookup_policy (applyOps [Op.pushNew "a", Op.popOp] (initStore none)) 5).2
    (by decide)
  have h0 := (C8_index_lookup_policy (applyOps [Op.pushNew "a", Op.popOp] (initStore none)) 0).2
    (by decide)
  refine ⟨rfl, ?_, ?_⟩
  · exact h.1 (by decide)
  · exact h0.2.1 0 rfl

end Pewpew
